import Mathlib

/-!
Verification of the Bjøntegaard-Delta (BD-Rate / BD-Metric) computation engine
of the VMA repository, a shallow embedding of `_bd_rate` and `_bd_metrics`
from `src/pages/Metrics_Analysis.py` over the real numbers.  Floating point is
idealised as `ℝ`; `numpy` least-squares fitting is embedded through the normal
equations of the cubic design matrix; the pandas row filtering used by
`_build_bd_rows._collect` is embedded over lists of optional-valued rows.
-/

namespace VMA

open Real

/-- Outcome of calling one of the Python BD functions: either the call raises
an uncaught exception, or it returns a value, where `none` models Python
`None`. -/
inductive PyResult where
  | raises : PyResult
  | returns : Option ℝ → PyResult

/-- Python `min(xs)` for a nonempty list, with junk value `0` on `[]`.  Every
call site in the embedding is reachable only with a nonempty list, because
`np.polyfit` has already raised on empty input. -/
def minD : List ℝ → ℝ
  | [] => 0
  | x :: xs => xs.foldl min x

/-- Python `max(xs)` for a nonempty list, with junk value `0` on `[]`. -/
def maxD : List ℝ → ℝ
  | [] => 0
  | x :: xs => xs.foldl max x

/-- `np.polyval p x` with `p` listing coefficients from the highest degree
down: `polyval [a, b, c, d] x = a * x ^ 3 + b * x ^ 2 + c * x + d`. -/
def polyval : List ℝ → ℝ → ℝ
  | [], _ => 0
  | c :: rest, x => c * x ^ rest.length + polyval rest x

/-- Helper for `np.polyint`: each coefficient is divided by the exponent it
acquires in the antiderivative. -/
noncomputable def polyintAux : List ℝ → List ℝ
  | [] => []
  | c :: rest => c / (rest.length + 1) :: polyintAux rest

/-- `np.polyint p`: coefficients of the antiderivative of `p`, with zero
integration constant appended as the new constant term. -/
noncomputable def polyint (p : List ℝ) : List ℝ := polyintAux p ++ [0]

/-- Gram matrix `AᵀA` of the degree-3 design matrix `A` whose row for sample
`x` is `[x^3, x^2, x, 1]` — the matrix `np.polyfit(xs, ys, 3)` fits with. -/
def gram (xs : List ℝ) : Matrix (Fin 4) (Fin 4) ℝ :=
  Matrix.of fun i j => (xs.map fun x => x ^ (3 - i.val) * x ^ (3 - j.val)).sum

/-- Moment vector `Aᵀy` of the degree-3 design matrix. -/
def moment (xs ys : List ℝ) : Fin 4 → ℝ :=
  fun i => ((xs.zip ys).map fun q => q.2 * q.1 ^ (3 - i.val)).sum

/-- Solution of the normal equations `AᵀA c = Aᵀ y` of the cubic least-squares
problem solved by `np.polyfit(xs, ys, 3)`.  When the Gram matrix is invertible
(at least four distinct abscissae) this is the unique least-squares minimiser
(`lstsqVec_normal_eq`, `lstsqVec_rss_min` below); Mathlib's convention
`M⁻¹ = 0` for singular `M` totalises the rank-deficient case, whose value no
claim depends on. -/
noncomputable def lstsqVec (xs ys : List ℝ) : Fin 4 → ℝ :=
  (gram xs)⁻¹.mulVec (moment xs ys)

/-- Coefficient list of the fitted cubic, highest degree first, as returned by
`np.polyfit(xs, ys, 3)`. -/
noncomputable def lstsq (xs ys : List ℝ) : List ℝ :=
  [lstsqVec xs ys 0, lstsqVec xs ys 1, lstsqVec xs ys 2, lstsqVec xs ys 3]

/-- Model of `np.polyfit(xs, ys, 3)` as used under `try/except` in the source:
`np.polyfit` raises (here: `none`) on empty or length-mismatched input; on
real-valued data of matching shape the least-squares problem always has the
normal-equation solution, so the fit succeeds. -/
noncomputable def polyfit (xs ys : List ℝ) : Option (List ℝ) :=
  if xs.length = ys.length ∧ xs ≠ [] then some (lstsq xs ys) else none

/-- Residual sum of squares of a candidate cubic coefficient vector against
the sample pairs: the quantity `np.polyfit` minimises. -/
noncomputable def rss (xs ys : List ℝ) (c : Fin 4 → ℝ) : ℝ :=
  ((xs.zip ys).map fun q => (q.2 - ∑ j : Fin 4, c j * q.1 ^ (3 - j.val)) ^ 2).sum

/-- `np.linspace a b n` with `retstep=True`: `n` evenly spaced samples from
`a` to `b` inclusive, together with the step `(b - a) / (n - 1)`. -/
noncomputable def linspace (a b : ℝ) (n : ℕ) : List ℝ × ℝ :=
  (((List.range n).map fun i => a + i * ((b - a) / ((n : ℝ) - 1))),
    (b - a) / ((n : ℝ) - 1))

/-- `np.trapz v (dx := h)`: uniform-spacing trapezoidal rule, in the closed
form `h * (Σ v - (first + last) / 2)`, which agrees with the sum of
trapezoids for every list (and gives `0` on fewer than two samples). -/
noncomputable def trapz (v : List ℝ) (dx : ℝ) : ℝ :=
  dx * (v.sum - (v.headD 0 + v.getLastD 0) / 2)

/-- Order used to model `np.sort(x), y[np.argsort(x)]`: pairs sorted by the
fitting axis.  The tie-break on the second component is immaterial to every
reachable outcome, because tied first components make the downstream pchip
interpolation raise before any interpolated value is used. -/
def lexLe (p q : ℝ × ℝ) : Prop :=
  p.1 < q.1 ∨ (p.1 = q.1 ∧ p.2 ≤ q.2)

noncomputable instance lexLe.decRel : DecidableRel lexLe := fun p q => by
  unfold lexLe; infer_instance

/-- Sort the (abscissa, ordinate) pairs of one side by abscissa, modelling
`np.sort(x)` paired with `y[np.argsort(x)]`. -/
noncomputable def sortPairs (ps : List (ℝ × ℝ)) : List (ℝ × ℝ) :=
  ps.insertionSort lexLe

/-- Width `x (i+1) - x i` of the `i`-th interpolation interval. -/
noncomputable def widths (xs : List ℝ) (i : ℕ) : ℝ := xs.getD (i + 1) 0 - xs.getD i 0

/-- Secant slope of the data over the `i`-th interval. -/
noncomputable def slopes (xs ys : List ℝ) (i : ℕ) : ℝ :=
  (ys.getD (i + 1) 0 - ys.getD i 0) / (xs.getD (i + 1) 0 - xs.getD i 0)

/-- Endpoint derivative of the PCHIP interpolant (scipy `_edge_case`): the
one-sided three-point estimate, clipped to preserve shape. -/
noncomputable def edgeDeriv (h0 h1 m0 m1 : ℝ) : ℝ :=
  let d := ((2 * h0 + h1) * m0 - h0 * m1) / (h0 + h1)
  if d * m0 ≤ 0 then 0
  else if m0 * m1 ≤ 0 ∧ |d| > 3 * |m0| then 3 * m0
  else d

/-- Node derivative of the PCHIP interpolant (scipy `PchipInterpolator`):
zero at local extrema of the data, otherwise the Fritsch–Carlson weighted
harmonic mean of the neighbouring secant slopes; one-sided estimates at the
two endpoints, and the single secant slope when only two points are given. -/
noncomputable def pchipDerivAt (xs ys : List ℝ) (i : ℕ) : ℝ :=
  let n := xs.length
  if n = 2 then slopes xs ys 0
  else if i = 0 then edgeDeriv (widths xs 0) (widths xs 1) (slopes xs ys 0) (slopes xs ys 1)
  else if i = n - 1 then
    edgeDeriv (widths xs (n - 2)) (widths xs (n - 3)) (slopes xs ys (n - 2)) (slopes xs ys (n - 3))
  else
    let d1 := slopes xs ys (i - 1)
    let d2 := slopes xs ys i
    if d1 * d2 ≤ 0 then 0
    else
      let h1 := widths xs (i - 1)
      let h2 := widths xs i
      ((2 * h2 + h1) + (h2 + 2 * h1)) / ((2 * h2 + h1) / d1 + (h2 + 2 * h1) / d2)

/-- Index of the cubic piece used to evaluate at `t`: the interval whose left
node is the last node `≤ t`, clamped so that queries outside the data range
extrapolate with the first or last cubic, as scipy's `PPoly` does. -/
noncomputable def intervalIdx (xs : List ℝ) (t : ℝ) : ℕ :=
  min (xs.length - 2) (xs.countP (fun x => decide (x ≤ t)) - 1)

/-- Evaluation of the PCHIP piecewise cubic at `t`: the Hermite cubic of the
selected interval, written in the local variable `s = t - x i`. -/
noncomputable def hermiteEval (xs ys : List ℝ) (t : ℝ) : ℝ :=
  let i := intervalIdx xs t
  let x0 := xs.getD i 0
  let h := xs.getD (i + 1) 0 - x0
  let y0 := ys.getD i 0
  let d := slopes xs ys i
  let m0 := pchipDerivAt xs ys i
  let m1 := pchipDerivAt xs ys (i + 1)
  let s := t - x0
  y0 + m0 * s + ((3 * d - 2 * m0 - m1) / h) * s ^ 2 +
    ((m0 + m1 - 2 * d) / h ^ 2) * s ^ 3

/-- Model of `scipy.interpolate.pchip_interpolate xs ys samples`: scipy
raises (`none`) unless the abscissae are at least two, strictly increasing and
matched in length by the ordinates; otherwise it evaluates the shape-preserving
piecewise cubic at each sample. -/
noncomputable def pchipInterpolate (xs ys samples : List ℝ) : Option (List ℝ) :=
  if 2 ≤ xs.length ∧ xs.length = ys.length ∧ xs.Chain' (· < ·) then
    some (samples.map (hermiteEval xs ys))
  else none

/-- Shallow embedding of `_bd_rate(rate1, metric1, rate2, metric2, piecewise)`
(`src/pages/Metrics_Analysis.py`, lines 86–114).  Mirrors the source line by
line: the `< 4` guard, `np.log` of the rates, the `try`-wrapped `np.polyfit`
calls (a fit failure returns `None`), the overlap interval of the metric
ranges, then either analytic integration of the antiderivatives (exact mode)
or 100-point pchip/trapezoid integration (piecewise mode).  In piecewise mode
`scipy.interpolate.pchip_interpolate` is called outside the `try` block, so
its exceptions propagate (`PyResult.raises`). -/
noncomputable def bd_rate (rate1 metric1 rate2 metric2 : List ℝ)
    (piecewise : ℕ) : PyResult :=
  if rate1.length < 4 ∨ rate2.length < 4 then .returns none
  else
    let lR1 := rate1.map Real.log
    let lR2 := rate2.map Real.log
    match polyfit metric1 lR1, polyfit metric2 lR2 with
    | some p1, some p2 =>
      let min_int := max (minD metric1) (minD metric2)
      let max_int := min (maxD metric1) (maxD metric2)
      if max_int ≤ min_int then .returns none
      else if piecewise = 0 then
        let int1 := polyval (polyint p1) max_int - polyval (polyint p1) min_int
        let int2 := polyval (polyint p2) max_int - polyval (polyint p2) min_int
        .returns (some ((Real.exp ((int2 - int1) / (max_int - min_int)) - 1) * 100))
      else
        let samples := (linspace min_int max_int 100).1
        let interval := (linspace min_int max_int 100).2
        let s1 := sortPairs (metric1.zip lR1)
        let s2 := sortPairs (metric2.zip lR2)
        match pchipInterpolate (s1.map Prod.fst) (s1.map Prod.snd) samples,
              pchipInterpolate (s2.map Prod.fst) (s2.map Prod.snd) samples with
        | some v1, some v2 =>
          .returns (some ((Real.exp ((trapz v2 interval - trapz v1 interval) /
            (max_int - min_int)) - 1) * 100))
        | _, _ => .raises
    | _, _ => .returns none

/-- Shallow embedding of `_bd_metrics(rate1, metric1, rate2, metric2,
piecewise)` (`src/pages/Metrics_Analysis.py`, lines 117–145).  Same structure
as `bd_rate` with the fitting axes swapped (metric as a function of log-rate,
overlap on the log-rate ranges) and no exponential conversion.  In piecewise
mode the source evaluates `metric1[np.argsort(lR1)]`, which indexes a plain
Python list with an ndarray and therefore raises `TypeError` before
`pchip_interpolate` is even called, so the piecewise branch always raises. -/
noncomputable def bd_metrics (rate1 metric1 rate2 metric2 : List ℝ)
    (piecewise : ℕ) : PyResult :=
  if rate1.length < 4 ∨ rate2.length < 4 then .returns none
  else
    let lR1 := rate1.map Real.log
    let lR2 := rate2.map Real.log
    match polyfit lR1 metric1, polyfit lR2 metric2 with
    | some p1, some p2 =>
      let min_int := max (minD lR1) (minD lR2)
      let max_int := min (maxD lR1) (maxD lR2)
      if max_int ≤ min_int then .returns none
      else if piecewise = 0 then
        let int1 := polyval (polyint p1) max_int - polyval (polyint p1) min_int
        let int2 := polyval (polyint p2) max_int - polyval (polyint p2) min_int
        .returns (some ((int2 - int1) / (max_int - min_int)))
      else .raises
    | _, _ => .returns none

/-- One row of the pandas merge of the two sides in `_build_bd_rows`, reduced
to the four columns `_collect` inspects for one metric: a missing value
(`NaN` in the dataframe, `None` upstream) is `none`. -/
structure MergedRow where
  rate_base : Option ℝ
  m_base : Option ℝ
  rate_exp : Option ℝ
  m_exp : Option ℝ

/-- Whether a merged row survives `merge.dropna(subset=[col_base, col_exp,
"Bitrate_kbps_base", "Bitrate_kbps_exp"])`: all four components present. -/
def rowComplete (r : MergedRow) : Bool :=
  r.rate_base.isSome && r.m_base.isSome && r.rate_exp.isSome && r.m_exp.isSome

/-- Shallow embedding of `_build_bd_rows._collect` (lines 200–209): rows with
any missing component among the two bitrates and the two metric values are
dropped pairwise, and the four surviving columns are returned as lists. -/
noncomputable def collect (rows : List MergedRow) : List ℝ × List ℝ × List ℝ × List ℝ :=
  let kept := rows.filter rowComplete
  (kept.map fun r => r.rate_base.getD 0,
   kept.map fun r => r.m_base.getD 0,
   kept.map fun r => r.rate_exp.getD 0,
   kept.map fun r => r.m_exp.getD 0)

/-! Branch lemmas: each lemma isolates one control-flow path of `bd_rate` or
`bd_metrics`, mirroring the guards of the Python source. -/

section Branches

variable {rate1 metric1 rate2 metric2 p1 p2 : List ℝ} {p : ℕ}

theorem bd_rate_guard (h : rate1.length < 4 ∨ rate2.length < 4) :
    bd_rate rate1 metric1 rate2 metric2 p = .returns none := by
  unfold bd_rate; rw [if_pos h]

theorem bd_rate_fit_none (hlen : ¬(rate1.length < 4 ∨ rate2.length < 4))
    (hf : polyfit metric1 (rate1.map Real.log) = none ∨
          polyfit metric2 (rate2.map Real.log) = none) :
    bd_rate rate1 metric1 rate2 metric2 p = .returns none := by
  rcases hf with hf | hf
  · simp only [bd_rate, if_neg hlen, hf]
  · simp only [bd_rate, if_neg hlen, hf]
    cases polyfit metric1 (rate1.map Real.log) <;> rfl

theorem bd_rate_overlap_none (hlen : ¬(rate1.length < 4 ∨ rate2.length < 4))
    (hf1 : polyfit metric1 (rate1.map Real.log) = some p1)
    (hf2 : polyfit metric2 (rate2.map Real.log) = some p2)
    (hov : min (maxD metric1) (maxD metric2) ≤ max (minD metric1) (minD metric2)) :
    bd_rate rate1 metric1 rate2 metric2 p = .returns none := by
  simp only [bd_rate, if_neg hlen, hf1, hf2, if_pos hov]

theorem bd_rate_exact_val (hlen : ¬(rate1.length < 4 ∨ rate2.length < 4))
    (hf1 : polyfit metric1 (rate1.map Real.log) = some p1)
    (hf2 : polyfit metric2 (rate2.map Real.log) = some p2)
    (hov : ¬ min (maxD metric1) (maxD metric2) ≤ max (minD metric1) (minD metric2)) :
    bd_rate rate1 metric1 rate2 metric2 0 = .returns (some ((Real.exp
      (((polyval (polyint p2) (min (maxD metric1) (maxD metric2)) -
         polyval (polyint p2) (max (minD metric1) (minD metric2))) -
        (polyval (polyint p1) (min (maxD metric1) (maxD metric2)) -
         polyval (polyint p1) (max (minD metric1) (minD metric2)))) /
        (min (maxD metric1) (maxD metric2) - max (minD metric1) (minD metric2))) - 1) *
        100)) := by
  simp only [bd_rate, if_neg hlen, hf1, hf2, if_neg hov, if_pos rfl, if_true]

theorem bd_metrics_guard (h : rate1.length < 4 ∨ rate2.length < 4) :
    bd_metrics rate1 metric1 rate2 metric2 p = .returns none := by
  unfold bd_metrics; rw [if_pos h]

theorem bd_metrics_fit_none (hlen : ¬(rate1.length < 4 ∨ rate2.length < 4))
    (hf : polyfit (rate1.map Real.log) metric1 = none ∨
          polyfit (rate2.map Real.log) metric2 = none) :
    bd_metrics rate1 metric1 rate2 metric2 p = .returns none := by
  rcases hf with hf | hf
  · simp only [bd_metrics, if_neg hlen, hf]
  · simp only [bd_metrics, if_neg hlen, hf]
    cases polyfit (rate1.map Real.log) metric1 <;> rfl

theorem bd_metrics_overlap_none (hlen : ¬(rate1.length < 4 ∨ rate2.length < 4))
    (hf1 : polyfit (rate1.map Real.log) metric1 = some p1)
    (hf2 : polyfit (rate2.map Real.log) metric2 = some p2)
    (hov : min (maxD (rate1.map Real.log)) (maxD (rate2.map Real.log)) ≤
           max (minD (rate1.map Real.log)) (minD (rate2.map Real.log))) :
    bd_metrics rate1 metric1 rate2 metric2 p = .returns none := by
  simp only [bd_metrics, if_neg hlen, hf1, hf2, if_pos hov]

theorem bd_metrics_exact_val (hlen : ¬(rate1.length < 4 ∨ rate2.length < 4))
    (hf1 : polyfit (rate1.map Real.log) metric1 = some p1)
    (hf2 : polyfit (rate2.map Real.log) metric2 = some p2)
    (hov : ¬ min (maxD (rate1.map Real.log)) (maxD (rate2.map Real.log)) ≤
           max (minD (rate1.map Real.log)) (minD (rate2.map Real.log))) :
    bd_metrics rate1 metric1 rate2 metric2 0 = .returns (some
      (((polyval (polyint p2) (min (maxD (rate1.map Real.log)) (maxD (rate2.map Real.log))) -
         polyval (polyint p2) (max (minD (rate1.map Real.log)) (minD (rate2.map Real.log)))) -
        (polyval (polyint p1) (min (maxD (rate1.map Real.log)) (maxD (rate2.map Real.log))) -
         polyval (polyint p1) (max (minD (rate1.map Real.log)) (minD (rate2.map Real.log))))) /
        (min (maxD (rate1.map Real.log)) (maxD (rate2.map Real.log)) -
         max (minD (rate1.map Real.log)) (minD (rate2.map Real.log))))) := by
  simp only [bd_metrics, if_neg hlen, hf1, hf2, if_neg hov, if_pos rfl, if_true]

theorem bd_metrics_piecewise_raises (hlen : ¬(rate1.length < 4 ∨ rate2.length < 4))
    (hf1 : polyfit (rate1.map Real.log) metric1 = some p1)
    (hf2 : polyfit (rate2.map Real.log) metric2 = some p2)
    (hov : ¬ min (maxD (rate1.map Real.log)) (maxD (rate2.map Real.log)) ≤
           max (minD (rate1.map Real.log)) (minD (rate2.map Real.log)))
    (hp : p ≠ 0) :
    bd_metrics rate1 metric1 rate2 metric2 p = .raises := by
  simp only [bd_metrics, if_neg hlen, hf1, hf2, if_neg hov, if_neg hp]

end Branches

/-! Elementary theory of `minD` / `maxD`: membership, boundedness, and
invariance under permutation. -/

section MinMax

theorem foldl_min_le_init (xs : List ℝ) : ∀ a : ℝ, xs.foldl min a ≤ a := by
  induction xs with
  | nil => intro a; exact le_refl a
  | cons x xs ih => intro a; exact (ih (min a x)).trans (min_le_left a x)

theorem foldl_min_le_mem (xs : List ℝ) : ∀ a : ℝ, ∀ y ∈ xs, xs.foldl min a ≤ y := by
  induction xs with
  | nil => intro a y hy; cases hy
  | cons x xs ih =>
    intro a y hy
    rcases List.mem_cons.mp hy with rfl | hy
    · exact (foldl_min_le_init xs (min a y)).trans (min_le_right a y)
    · exact ih (min a x) y hy

theorem foldl_min_mem (xs : List ℝ) : ∀ a : ℝ, xs.foldl min a ∈ a :: xs := by
  induction xs with
  | nil => intro a; simp
  | cons x xs ih =>
    intro a
    have h := ih (min a x)
    simp only [List.foldl_cons]
    rcases List.mem_cons.mp h with h | h
    · rcases min_choice a x with h' | h'
      · rw [h, h']; exact List.mem_cons_self _ _
      · rw [h, h']; exact List.mem_cons_of_mem _ (List.mem_cons_self _ _)
    · exact List.mem_cons_of_mem _ (List.mem_cons_of_mem _ h)

theorem minD_mem {l : List ℝ} (h : l ≠ []) : minD l ∈ l := by
  cases l with
  | nil => exact absurd rfl h
  | cons x xs => exact foldl_min_mem xs x

theorem minD_le {l : List ℝ} {y : ℝ} (hy : y ∈ l) : minD l ≤ y := by
  cases l with
  | nil => cases hy
  | cons x xs =>
    rcases List.mem_cons.mp hy with rfl | hy
    · exact foldl_min_le_init xs y
    · exact foldl_min_le_mem xs x y hy

theorem foldl_max_ge_init (xs : List ℝ) : ∀ a : ℝ, a ≤ xs.foldl max a := by
  induction xs with
  | nil => intro a; exact le_refl a
  | cons x xs ih => intro a; exact (le_max_left a x).trans (ih (max a x))

theorem foldl_max_ge_mem (xs : List ℝ) : ∀ a : ℝ, ∀ y ∈ xs, y ≤ xs.foldl max a := by
  induction xs with
  | nil => intro a y hy; cases hy
  | cons x xs ih =>
    intro a y hy
    rcases List.mem_cons.mp hy with rfl | hy
    · exact (le_max_right a y).trans (foldl_max_ge_init xs (max a y))
    · exact ih (max a x) y hy

theorem foldl_max_mem (xs : List ℝ) : ∀ a : ℝ, xs.foldl max a ∈ a :: xs := by
  induction xs with
  | nil => intro a; simp
  | cons x xs ih =>
    intro a
    have h := ih (max a x)
    simp only [List.foldl_cons]
    rcases List.mem_cons.mp h with h | h
    · rcases max_choice a x with h' | h'
      · rw [h, h']; exact List.mem_cons_self _ _
      · rw [h, h']; exact List.mem_cons_of_mem _ (List.mem_cons_self _ _)
    · exact List.mem_cons_of_mem _ (List.mem_cons_of_mem _ h)

theorem maxD_mem {l : List ℝ} (h : l ≠ []) : maxD l ∈ l := by
  cases l with
  | nil => exact absurd rfl h
  | cons x xs => exact foldl_max_mem xs x

theorem le_maxD {l : List ℝ} {y : ℝ} (hy : y ∈ l) : y ≤ maxD l := by
  cases l with
  | nil => cases hy
  | cons x xs =>
    rcases List.mem_cons.mp hy with rfl | hy
    · exact foldl_max_ge_init xs y
    · exact foldl_max_ge_mem xs x y hy

theorem minD_perm {l l' : List ℝ} (h : l.Perm l') : minD l = minD l' := by
  rcases eq_or_ne l [] with rfl | hne
  · rw [h.nil_eq]
  · have hne' : l' ≠ [] := by
      intro e
      rw [e] at h
      exact hne (List.length_eq_zero.mp (by simpa using h.length_eq))
    exact le_antisymm (minD_le (h.mem_iff.mpr (minD_mem hne')))
      (minD_le (h.symm.mem_iff.mpr (minD_mem hne)))

theorem maxD_perm {l l' : List ℝ} (h : l.Perm l') : maxD l = maxD l' := by
  rcases eq_or_ne l [] with rfl | hne
  · rw [h.nil_eq]
  · have hne' : l' ≠ [] := by
      intro e
      rw [e] at h
      exact hne (List.length_eq_zero.mp (by simpa using h.length_eq))
    exact le_antisymm (le_maxD (h.symm.mem_iff.mpr (maxD_mem hne)))
      (le_maxD (h.mem_iff.mpr (maxD_mem hne')))

end MinMax

/-! The analytic-integration core: evaluating `np.polyint` antiderivative
coefficients with `np.polyval` at the interval ends computes the interval
integral of the fitted polynomial. -/

section Integration

theorem polyval_cons (c : ℝ) (q : List ℝ) (x : ℝ) :
    polyval (c :: q) x = c * x ^ q.length + polyval q x := rfl

theorem polyint_cons (c : ℝ) (rest : List ℝ) :
    polyint (c :: rest) = c / (rest.length + 1) :: polyint rest := by
  simp [polyint, polyintAux]

theorem polyintAux_length (p : List ℝ) : (polyintAux p).length = p.length := by
  induction p with
  | nil => rfl
  | cons c rest ih => simp [polyintAux, ih]

theorem polyint_length (p : List ℝ) : (polyint p).length = p.length + 1 := by
  simp [polyint, polyintAux_length]

theorem hasDerivAt_polyint (p : List ℝ) (x : ℝ) :
    HasDerivAt (fun t => polyval (polyint p) t) (polyval p x) x := by
  induction p generalizing x with
  | nil =>
    have h : (fun t : ℝ => polyval (polyint []) t) = fun _ : ℝ => (0 : ℝ) := by
      funext t; simp [polyint, polyintAux, polyval]
    rw [h]
    simpa [polyval] using hasDerivAt_const x (0 : ℝ)
  | cons c rest ih =>
    have h : (fun t : ℝ => polyval (polyint (c :: rest)) t) =
        fun t : ℝ => c / (rest.length + 1) * t ^ (rest.length + 1) +
          polyval (polyint rest) t := by
      funext t
      rw [polyint_cons, polyval_cons, polyint_length]
    rw [h]
    have h1 : HasDerivAt (fun t : ℝ => c / (rest.length + 1) * t ^ (rest.length + 1))
        (c * x ^ rest.length) x := by
      have h2 := (hasDerivAt_pow (rest.length + 1) x).const_mul (c / (rest.length + 1))
      convert h2 using 1
      have hne : ((rest.length : ℝ) + 1) ≠ 0 := by positivity
      push_cast
      field_simp
      ring
    simpa [polyval_cons] using h1.add (ih x)

theorem continuous_polyval (p : List ℝ) : Continuous fun t : ℝ => polyval p t := by
  induction p with
  | nil => simpa [polyval] using continuous_const
  | cons c q ih =>
    have h : (fun t : ℝ => polyval (c :: q) t) =
        fun t : ℝ => c * t ^ q.length + polyval q t := rfl
    rw [h]
    exact (continuous_const.mul (continuous_pow q.length)).add ih

theorem integral_polyval (p : List ℝ) (a b : ℝ) :
    polyval (polyint p) b - polyval (polyint p) a = ∫ t in a..b, polyval p t :=
  (intervalIntegral.integral_eq_sub_of_hasDerivAt
    (fun x _ => hasDerivAt_polyint p x)
    ((continuous_polyval p).intervalIntegrable a b)).symm

end Integration

/-! Interaction of `minD` / `maxD` with `Real.log` on positive data. -/

section LogMinMax

theorem log_le_log_of {a b : ℝ} (h0 : 0 < a) (h : a ≤ b) : Real.log a ≤ Real.log b :=
  (Real.log_le_log_iff h0 (h0.trans_le h)).mpr h

theorem minD_map_log {l : List ℝ} (hpos : ∀ x ∈ l, 0 < x) (hne : l ≠ []) :
    minD (l.map Real.log) = Real.log (minD l) := by
  have hmin_mem := minD_mem hne
  refine le_antisymm (minD_le (List.mem_map_of_mem Real.log hmin_mem)) ?_
  obtain ⟨y, hy, he⟩ :=
    List.mem_map.mp (minD_mem (show l.map Real.log ≠ [] by simpa using hne))
  rw [← he]
  exact log_le_log_of (hpos _ hmin_mem) (minD_le hy)

theorem maxD_map_log {l : List ℝ} (hpos : ∀ x ∈ l, 0 < x) (hne : l ≠ []) :
    maxD (l.map Real.log) = Real.log (maxD l) := by
  have hmax_mem := maxD_mem hne
  refine le_antisymm ?_ (le_maxD (List.mem_map_of_mem Real.log hmax_mem))
  obtain ⟨y, hy, he⟩ :=
    List.mem_map.mp (maxD_mem (show l.map Real.log ≠ [] by simpa using hne))
  rw [← he]
  exact log_le_log_of (hpos _ hy) (le_maxD hy)

end LogMinMax

/-- C1: for sample sets of at least 4 points with positive bitrates and
overlapping metric ranges, `_bd_rate` in exact mode returns
`(exp d - 1) * 100` where `d` is the difference of the interval integrals of
the two fitted cubics over the overlap of the metric ranges, divided by the
overlap width; the fit of each side is the least-squares cubic of
`ln(bitrate)` as a function of the metric. -/
theorem bd_rate_exact_integral (rate1 metric1 rate2 metric2 : List ℝ)
    (h1 : 4 ≤ rate1.length) (h2 : 4 ≤ rate2.length)
    (hm1 : metric1.length = rate1.length) (hm2 : metric2.length = rate2.length)
    (hpos1 : ∀ x ∈ rate1, 0 < x) (hpos2 : ∀ x ∈ rate2, 0 < x)
    (hov : max (minD metric1) (minD metric2) < min (maxD metric1) (maxD metric2)) :
    bd_rate rate1 metric1 rate2 metric2 0 = .returns (some ((Real.exp
      (((∫ t in (max (minD metric1) (minD metric2))..(min (maxD metric1) (maxD metric2)),
          polyval (lstsq metric2 (rate2.map Real.log)) t) -
        ∫ t in (max (minD metric1) (minD metric2))..(min (maxD metric1) (maxD metric2)),
          polyval (lstsq metric1 (rate1.map Real.log)) t) /
        (min (maxD metric1) (maxD metric2) - max (minD metric1) (minD metric2))) - 1) *
        100)) := by
  have hlen : ¬(rate1.length < 4 ∨ rate2.length < 4) := by push_neg; exact ⟨h1, h2⟩
  have hne1 : metric1 ≠ [] := List.ne_nil_of_length_pos (by omega)
  have hne2 : metric2 ≠ [] := List.ne_nil_of_length_pos (by omega)
  have hf1 : polyfit metric1 (rate1.map Real.log) =
      some (lstsq metric1 (rate1.map Real.log)) := by
    unfold polyfit
    rw [if_pos ⟨by simp [hm1], hne1⟩]
  have hf2 : polyfit metric2 (rate2.map Real.log) =
      some (lstsq metric2 (rate2.map Real.log)) := by
    unfold polyfit
    rw [if_pos ⟨by simp [hm2], hne2⟩]
  rw [bd_rate_exact_val hlen hf1 hf2 (not_le.mpr hov)]
  rw [← integral_polyval, ← integral_polyval]

/-- Witness for C1 at the concrete inputs of the spec's sign-convention
example. -/
theorem bd_rate_exact_integral_witness :
    bd_rate [500, 1000, 2000, 4000] [30, 35, 40, 45] [400, 800, 1600, 3200] [30, 35, 40, 45] 0 =
      .returns (some ((Real.exp
        (((∫ t in (max (minD [(30:ℝ), 35, 40, 45]) (minD [(30:ℝ), 35, 40, 45]))..(min
              (maxD [(30:ℝ), 35, 40, 45]) (maxD [(30:ℝ), 35, 40, 45])),
            polyval (lstsq [30, 35, 40, 45] ([(400:ℝ), 800, 1600, 3200].map Real.log)) t) -
          ∫ t in (max (minD [(30:ℝ), 35, 40, 45]) (minD [(30:ℝ), 35, 40, 45]))..(min
              (maxD [(30:ℝ), 35, 40, 45]) (maxD [(30:ℝ), 35, 40, 45])),
            polyval (lstsq [30, 35, 40, 45] ([(500:ℝ), 1000, 2000, 4000].map Real.log)) t) /
          (min (maxD [(30:ℝ), 35, 40, 45]) (maxD [(30:ℝ), 35, 40, 45]) -
           max (minD [(30:ℝ), 35, 40, 45]) (minD [(30:ℝ), 35, 40, 45]))) - 1) * 100)) := by
  apply bd_rate_exact_integral
  · simp
  · simp
  · simp
  · simp
  · intro x hx; simp at hx; rcases hx with rfl | rfl | rfl | rfl <;> norm_num
  · intro x hx; simp at hx; rcases hx with rfl | rfl | rfl | rfl <;> norm_num
  · norm_num [minD, maxD, min_def, max_def]

/-- C3: with fewer than 4 samples on either side, both `_bd_rate` and
`_bd_metrics` return `None` and raise no exception, in both modes. -/
theorem bd_insufficient_none (rate1 metric1 rate2 metric2 : List ℝ) (p : ℕ)
    (h : rate1.length < 4 ∨ rate2.length < 4) :
    bd_rate rate1 metric1 rate2 metric2 p = .returns none ∧
    bd_metrics rate1 metric1 rate2 metric2 p = .returns none :=
  ⟨bd_rate_guard h, bd_metrics_guard h⟩

/-- Witness for C3: a three-point anchor side. -/
theorem bd_insufficient_none_witness :
    bd_rate [1, 2, 3] [10, 20, 30] [1, 2, 3, 4] [10, 20, 30, 40] 0 = .returns none ∧
    bd_metrics [1, 2, 3] [10, 20, 30] [1, 2, 3, 4] [10, 20, 30, 40] 0 = .returns none :=
  bd_insufficient_none _ _ _ _ _ (Or.inl (by simp))

/-- C4: with at least 4 points per side but non-overlapping fitting-axis
ranges (metric ranges for `_bd_rate`, log-bitrate ranges for `_bd_metrics`),
the computation returns `None` instead of a number. -/
theorem bd_no_overlap_none (rate1 metric1 rate2 metric2 : List ℝ) (p : ℕ)
    (h1 : 4 ≤ rate1.length) (h2 : 4 ≤ rate2.length)
    (hm1 : metric1.length = rate1.length) (hm2 : metric2.length = rate2.length) :
    (min (maxD metric1) (maxD metric2) ≤ max (minD metric1) (minD metric2) →
      bd_rate rate1 metric1 rate2 metric2 p = .returns none) ∧
    (min (maxD (rate1.map Real.log)) (maxD (rate2.map Real.log)) ≤
        max (minD (rate1.map Real.log)) (minD (rate2.map Real.log)) →
      bd_metrics rate1 metric1 rate2 metric2 p = .returns none) := by
  have hlen : ¬(rate1.length < 4 ∨ rate2.length < 4) := by push_neg; exact ⟨h1, h2⟩
  constructor
  · intro hov
    rcases hf1 : polyfit metric1 (rate1.map Real.log) with _ | q1
    · exact bd_rate_fit_none hlen (Or.inl hf1)
    · rcases hf2 : polyfit metric2 (rate2.map Real.log) with _ | q2
      · exact bd_rate_fit_none hlen (Or.inr hf2)
      · exact bd_rate_overlap_none hlen hf1 hf2 hov
  · intro hov
    rcases hf1 : polyfit (rate1.map Real.log) metric1 with _ | q1
    · exact bd_metrics_fit_none hlen (Or.inl hf1)
    · rcases hf2 : polyfit (rate2.map Real.log) metric2 with _ | q2
      · exact bd_metrics_fit_none hlen (Or.inr hf2)
      · exact bd_metrics_overlap_none hlen hf1 hf2 hov

/-- Witness for C4: anchor metrics span `[10, 20]`, test metrics span
`[30, 40]` (the spec's example), and the bitrate ranges are also disjoint, so
both conjuncts fire. -/
theorem bd_no_overlap_none_witness :
    bd_rate [1, 2, 3, 4] [10, 13, 17, 20] [100, 200, 300, 400] [30, 33, 37, 40] 0 =
      .returns none ∧
    bd_metrics [1, 2, 3, 4] [10, 13, 17, 20] [100, 200, 300, 400] [30, 33, 37, 40] 0 =
      .returns none := by
  obtain ⟨hA, hB⟩ := bd_no_overlap_none [1, 2, 3, 4] [10, 13, 17, 20]
    [100, 200, 300, 400] [30, 33, 37, 40] 0 (by simp) (by simp) (by simp) (by simp)
  refine ⟨hA ?_, hB ?_⟩
  · norm_num [minD, maxD, min_def, max_def]
  · have e1 : maxD ([(1:ℝ), 2, 3, 4].map Real.log) = Real.log (maxD [(1:ℝ), 2, 3, 4]) :=
      maxD_map_log (by intro x hx; simp at hx; rcases hx with rfl | rfl | rfl | rfl <;> norm_num)
        (by simp)
    have e2 : maxD ([(100:ℝ), 200, 300, 400].map Real.log) =
        Real.log (maxD [(100:ℝ), 200, 300, 400]) :=
      maxD_map_log (by intro x hx; simp at hx; rcases hx with rfl | rfl | rfl | rfl <;> norm_num)
        (by simp)
    have e3 : minD ([(1:ℝ), 2, 3, 4].map Real.log) = Real.log (minD [(1:ℝ), 2, 3, 4]) :=
      minD_map_log (by intro x hx; simp at hx; rcases hx with rfl | rfl | rfl | rfl <;> norm_num)
        (by simp)
    have e4 : minD ([(100:ℝ), 200, 300, 400].map Real.log) =
        Real.log (minD [(100:ℝ), 200, 300, 400]) :=
      minD_map_log (by intro x hx; simp at hx; rcases hx with rfl | rfl | rfl | rfl <;> norm_num)
        (by simp)
    rw [e1, e2, e3, e4]
    have v1 : maxD [(1:ℝ), 2, 3, 4] = 4 := by norm_num [maxD, max_def]
    have v2 : maxD [(100:ℝ), 200, 300, 400] = 400 := by norm_num [maxD, max_def]
    have v3 : minD [(1:ℝ), 2, 3, 4] = 1 := by norm_num [minD, min_def]
    have v4 : minD [(100:ℝ), 200, 300, 400] = 100 := by norm_num [minD, min_def]
    rw [v1, v2, v3, v4]
    have h4 : Real.log 4 ≤ Real.log 100 := log_le_log_of (by norm_num) (by norm_num)
    have h1 : Real.log 1 ≤ Real.log 100 := log_le_log_of (by norm_num) (by norm_num)
    calc min (Real.log 4) (Real.log 400) ≤ Real.log 4 := min_le_left _ _
      _ ≤ Real.log 100 := h4
      _ ≤ max (Real.log 1) (Real.log 100) := le_max_right _ _

/-- C2: for sample sets of at least 4 points with positive bitrates and
overlapping log-bitrate ranges, `_bd_metrics` in exact mode fits for each
side the least-squares cubic of the metric as a function of `ln(bitrate)`,
analytically integrates both fits over the intersection of the log-bitrate
domains, and returns the integral difference divided by the overlap width
directly, with no exponential conversion. -/
theorem bd_metrics_exact_integral (rate1 metric1 rate2 metric2 : List ℝ)
    (h1 : 4 ≤ rate1.length) (h2 : 4 ≤ rate2.length)
    (hm1 : metric1.length = rate1.length) (hm2 : metric2.length = rate2.length)
    (hpos1 : ∀ x ∈ rate1, 0 < x) (hpos2 : ∀ x ∈ rate2, 0 < x)
    (hov : max (minD (rate1.map Real.log)) (minD (rate2.map Real.log)) <
           min (maxD (rate1.map Real.log)) (maxD (rate2.map Real.log))) :
    bd_metrics rate1 metric1 rate2 metric2 0 = .returns (some
      (((∫ t in (max (minD (rate1.map Real.log)) (minD (rate2.map Real.log)))..(min
            (maxD (rate1.map Real.log)) (maxD (rate2.map Real.log))),
          polyval (lstsq (rate2.map Real.log) metric2) t) -
        ∫ t in (max (minD (rate1.map Real.log)) (minD (rate2.map Real.log)))..(min
            (maxD (rate1.map Real.log)) (maxD (rate2.map Real.log))),
          polyval (lstsq (rate1.map Real.log) metric1) t) /
        (min (maxD (rate1.map Real.log)) (maxD (rate2.map Real.log)) -
         max (minD (rate1.map Real.log)) (minD (rate2.map Real.log))))) := by
  have hlen : ¬(rate1.length < 4 ∨ rate2.length < 4) := by push_neg; exact ⟨h1, h2⟩
  have hne1 : rate1.map Real.log ≠ [] := by
    simp only [ne_eq, List.map_eq_nil_iff]
    exact List.ne_nil_of_length_pos (by omega)
  have hne2 : rate2.map Real.log ≠ [] := by
    simp only [ne_eq, List.map_eq_nil_iff]
    exact List.ne_nil_of_length_pos (by omega)
  have hf1 : polyfit (rate1.map Real.log) metric1 =
      some (lstsq (rate1.map Real.log) metric1) := by
    unfold polyfit
    rw [if_pos ⟨by simp [hm1], hne1⟩]
  have hf2 : polyfit (rate2.map Real.log) metric2 =
      some (lstsq (rate2.map Real.log) metric2) := by
    unfold polyfit
    rw [if_pos ⟨by simp [hm2], hne2⟩]
  rw [bd_metrics_exact_val hlen hf1 hf2 (not_le.mpr hov)]
  rw [← integral_polyval, ← integral_polyval]

/-- Witness for C2 at concrete four-point inputs with overlapping
log-bitrate ranges. -/
theorem bd_metrics_exact_integral_witness :
    bd_metrics [500, 1000, 2000, 4000] [30, 35, 40, 45] [400, 800, 1600, 3200] [30, 35, 40, 45] 0 =
      .returns (some
      (((∫ t in (max (minD ([(500:ℝ), 1000, 2000, 4000].map Real.log))
            (minD ([(400:ℝ), 800, 1600, 3200].map Real.log)))..(min
            (maxD ([(500:ℝ), 1000, 2000, 4000].map Real.log))
            (maxD ([(400:ℝ), 800, 1600, 3200].map Real.log))),
          polyval (lstsq ([(400:ℝ), 800, 1600, 3200].map Real.log) [30, 35, 40, 45]) t) -
        ∫ t in (max (minD ([(500:ℝ), 1000, 2000, 4000].map Real.log))
            (minD ([(400:ℝ), 800, 1600, 3200].map Real.log)))..(min
            (maxD ([(500:ℝ), 1000, 2000, 4000].map Real.log))
            (maxD ([(400:ℝ), 800, 1600, 3200].map Real.log))),
          polyval (lstsq ([(500:ℝ), 1000, 2000, 4000].map Real.log) [30, 35, 40, 45]) t) /
        (min (maxD ([(500:ℝ), 1000, 2000, 4000].map Real.log))
             (maxD ([(400:ℝ), 800, 1600, 3200].map Real.log)) -
         max (minD ([(500:ℝ), 1000, 2000, 4000].map Real.log))
             (minD ([(400:ℝ), 800, 1600, 3200].map Real.log))))) := by
  apply bd_metrics_exact_integral
  · simp
  · simp
  · simp
  · simp
  · intro x hx; simp at hx; rcases hx with rfl | rfl | rfl | rfl <;> norm_num
  · intro x hx; simp at hx; rcases hx with rfl | rfl | rfl | rfl <;> norm_num
  · have p1 : ∀ x ∈ [(500:ℝ), 1000, 2000, 4000], 0 < x := by
      intro x hx; simp at hx; rcases hx with rfl | rfl | rfl | rfl <;> norm_num
    have p2 : ∀ x ∈ [(400:ℝ), 800, 1600, 3200], 0 < x := by
      intro x hx; simp at hx; rcases hx with rfl | rfl | rfl | rfl <;> norm_num
    rw [minD_map_log p1 (by simp), minD_map_log p2 (by simp),
        maxD_map_log p1 (by simp), maxD_map_log p2 (by simp)]
    have v1 : minD [(500:ℝ), 1000, 2000, 4000] = 500 := by norm_num [minD, min_def]
    have v2 : minD [(400:ℝ), 800, 1600, 3200] = 400 := by norm_num [minD, min_def]
    have v3 : maxD [(500:ℝ), 1000, 2000, 4000] = 4000 := by norm_num [maxD, max_def]
    have v4 : maxD [(400:ℝ), 800, 1600, 3200] = 3200 := by norm_num [maxD, max_def]
    rw [v1, v2, v3, v4]
    have hmax : max (Real.log 500) (Real.log 400) ≤ Real.log 500 :=
      max_le (le_refl _) (log_le_log_of (by norm_num) (by norm_num))
    have hmin : Real.log 3200 ≤ min (Real.log 4000) (Real.log 3200) :=
      le_min (log_le_log_of (by norm_num) (by norm_num)) (le_refl _)
    exact lt_of_le_of_lt hmax (lt_of_lt_of_le (Real.log_lt_log (by norm_num) (by norm_num)) hmin)

/-! No-raise helpers for exact mode, shared by several claims. -/

section NoRaise

theorem returns_ne_raises (r : Option ℝ) : PyResult.returns r ≠ .raises :=
  fun h => PyResult.noConfusion h

theorem bd_rate_zero_ne_raises (rate1 metric1 rate2 metric2 : List ℝ) :
    bd_rate rate1 metric1 rate2 metric2 0 ≠ .raises := by
  by_cases hlen : rate1.length < 4 ∨ rate2.length < 4
  · rw [bd_rate_guard hlen]; exact returns_ne_raises _
  · rcases hf1 : polyfit metric1 (rate1.map Real.log) with _ | q1
    · rw [bd_rate_fit_none hlen (Or.inl hf1)]; exact returns_ne_raises _
    · rcases hf2 : polyfit metric2 (rate2.map Real.log) with _ | q2
      · rw [bd_rate_fit_none hlen (Or.inr hf2)]; exact returns_ne_raises _
      · by_cases hov : min (maxD metric1) (maxD metric2) ≤ max (minD metric1) (minD metric2)
        · rw [bd_rate_overlap_none hlen hf1 hf2 hov]; exact returns_ne_raises _
        · rw [bd_rate_exact_val hlen hf1 hf2 hov]; exact returns_ne_raises _

theorem bd_metrics_zero_ne_raises (rate1 metric1 rate2 metric2 : List ℝ) :
    bd_metrics rate1 metric1 rate2 metric2 0 ≠ .raises := by
  by_cases hlen : rate1.length < 4 ∨ rate2.length < 4
  · rw [bd_metrics_guard hlen]; exact returns_ne_raises _
  · rcases hf1 : polyfit (rate1.map Real.log) metric1 with _ | q1
    · rw [bd_metrics_fit_none hlen (Or.inl hf1)]; exact returns_ne_raises _
    · rcases hf2 : polyfit (rate2.map Real.log) metric2 with _ | q2
      · rw [bd_metrics_fit_none hlen (Or.inr hf2)]; exact returns_ne_raises _
      · by_cases hov : min (maxD (rate1.map Real.log)) (maxD (rate2.map Real.log)) ≤
            max (minD (rate1.map Real.log)) (minD (rate2.map Real.log))
        · rw [bd_metrics_overlap_none hlen hf1 hf2 hov]; exact returns_ne_raises _
        · rw [bd_metrics_exact_val hlen hf1 hf2 hov]; exact returns_ne_raises _

end NoRaise

/-- C6: a merged sample with a missing (None/NaN) metric or bitrate component
is dropped pairwise by `_collect` — the whole row, hence the matching sample
of the other side too, is excluded — and the BD computation proceeds on the
remaining valid pairs exactly as if the incomplete sample had never been
present, raising nothing in exact mode. -/
theorem collect_drops_missing (pre post : List MergedRow) (bad : MergedRow)
    (h : bad.rate_base = none ∨ bad.m_base = none ∨ bad.rate_exp = none ∨
         bad.m_exp = none) :
    collect (pre ++ bad :: post) = collect (pre ++ post) ∧
    (∀ p : ℕ,
      bd_rate (collect (pre ++ bad :: post)).1 (collect (pre ++ bad :: post)).2.1
        (collect (pre ++ bad :: post)).2.2.1 (collect (pre ++ bad :: post)).2.2.2 p =
      bd_rate (collect (pre ++ post)).1 (collect (pre ++ post)).2.1
        (collect (pre ++ post)).2.2.1 (collect (pre ++ post)).2.2.2 p) ∧
    bd_rate (collect (pre ++ bad :: post)).1 (collect (pre ++ bad :: post)).2.1
      (collect (pre ++ bad :: post)).2.2.1 (collect (pre ++ bad :: post)).2.2.2 0 ≠
      .raises := by
  have hbad : rowComplete bad = false := by
    rcases h with h | h | h <;> [skip; skip; rcases h with h | h] <;>
      simp [rowComplete, h]
  have hc : collect (pre ++ bad :: post) = collect (pre ++ post) := by
    simp [collect, List.filter_append, List.filter_cons, hbad]
  refine ⟨hc, fun p => by rw [hc], ?_⟩
  exact bd_rate_zero_ne_raises _ _ _ _

/-- Witness for C6: a five-point series whose middle sample has a missing
base-side metric is collected into the four remaining valid pairs. -/
theorem collect_drops_missing_witness :
    collect ([⟨some 500, some 30, some 400, some 31⟩, ⟨some 1000, some 35, some 800, some 36⟩] ++
        (⟨some 1500, none, some 1200, some 38⟩ : MergedRow) ::
        [⟨some 2000, some 40, some 1600, some 41⟩, ⟨some 4000, some 45, some 3200, some 46⟩]) =
    collect ([⟨some 500, some 30, some 400, some 31⟩, ⟨some 1000, some 35, some 800, some 36⟩] ++
        [⟨some 2000, some 40, some 1600, some 41⟩, ⟨some 4000, some 45, some 3200, some 46⟩]) ∧
    collect ([⟨some 500, some 30, some 400, some 31⟩, ⟨some 1000, some 35, some 800, some 36⟩] ++
        [⟨some 2000, some 40, some 1600, some 41⟩, ⟨some 4000, some 45, some 3200, some 46⟩]) =
      ([500, 1000, 2000, 4000], [30, 35, 40, 45], [400, 800, 1600, 3200], [31, 36, 41, 46]) := by
  constructor
  · exact (collect_drops_missing
      [⟨some 500, some 30, some 400, some 31⟩, ⟨some 1000, some 35, some 800, some 36⟩]
      [⟨some 2000, some 40, some 1600, some 41⟩, ⟨some 4000, some 45, some 3200, some 46⟩]
      ⟨some 1500, none, some 1200, some 38⟩ (Or.inr (Or.inl rfl))).1
  · simp [collect, rowComplete]

/-- C8: `_bd_rate` and `_bd_metrics` are deterministic — two calls with
identical argument sequences, in either mode, yield identical results; the
embedding reads nothing but its arguments. -/
theorem bd_deterministic
    (rate1 metric1 rate2 metric2 rate1' metric1' rate2' metric2' : List ℝ) (p p' : ℕ)
    (h : rate1 = rate1' ∧ metric1 = metric1' ∧ rate2 = rate2' ∧ metric2 = metric2' ∧
         p = p') :
    bd_rate rate1 metric1 rate2 metric2 p = bd_rate rate1' metric1' rate2' metric2' p' ∧
    bd_metrics rate1 metric1 rate2 metric2 p =
      bd_metrics rate1' metric1' rate2' metric2' p' := by
  obtain ⟨rfl, rfl, rfl, rfl, rfl⟩ := h
  exact ⟨rfl, rfl⟩

/-- Witness for C8 at concrete arguments, in both modes. -/
theorem bd_deterministic_witness :
    (bd_rate [500, 1000, 2000, 4000] [30, 35, 40, 45] [400, 800, 1600, 3200] [31, 36, 41, 46] 0 =
     bd_rate [500, 1000, 2000, 4000] [30, 35, 40, 45] [400, 800, 1600, 3200] [31, 36, 41, 46] 0 ∧
     bd_metrics [500, 1000, 2000, 4000] [30, 35, 40, 45] [400, 800, 1600, 3200] [31, 36, 41, 46] 0 =
     bd_metrics [500, 1000, 2000, 4000] [30, 35, 40, 45] [400, 800, 1600, 3200] [31, 36, 41, 46] 0) ∧
    (bd_rate [500, 1000, 2000, 4000] [30, 35, 40, 45] [400, 800, 1600, 3200] [31, 36, 41, 46] 1 =
     bd_rate [500, 1000, 2000, 4000] [30, 35, 40, 45] [400, 800, 1600, 3200] [31, 36, 41, 46] 1 ∧
     bd_metrics [500, 1000, 2000, 4000] [30, 35, 40, 45] [400, 800, 1600, 3200] [31, 36, 41, 46] 1 =
     bd_metrics [500, 1000, 2000, 4000] [30, 35, 40, 45] [400, 800, 1600, 3200] [31, 36, 41, 46] 1) :=
  ⟨bd_deterministic _ _ _ _ _ _ _ _ 0 0 ⟨rfl, rfl, rfl, rfl, rfl⟩,
   bd_deterministic _ _ _ _ _ _ _ _ 1 1 ⟨rfl, rfl, rfl, rfl, rfl⟩⟩

/-- Counterexample for C5: in piecewise mode an interpolation-stage exception
escapes `_bd_metrics`.  The source evaluates `metric1[np.argsort(lR1)]`, which
indexes a plain Python list with an ndarray and raises `TypeError` outside the
`try` block, so this four-point, overlapping-range call raises instead of
returning the undefined sentinel. -/
theorem bd_piecewise_raises_cx :
    bd_metrics [500, 1000, 2000, 4000] [30, 35, 40, 45] [400, 800, 1600, 3200] [30, 35, 40, 45] 1 =
      .raises := by
  have p1 : ∀ x ∈ [(500:ℝ), 1000, 2000, 4000], 0 < x := by
    intro x hx; simp at hx; rcases hx with rfl | rfl | rfl | rfl <;> norm_num
  have p2 : ∀ x ∈ [(400:ℝ), 800, 1600, 3200], 0 < x := by
    intro x hx; simp at hx; rcases hx with rfl | rfl | rfl | rfl <;> norm_num
  have hf1 : polyfit ([(500:ℝ), 1000, 2000, 4000].map Real.log) [30, 35, 40, 45] =
      some (lstsq ([(500:ℝ), 1000, 2000, 4000].map Real.log) [30, 35, 40, 45]) := by
    unfold polyfit
    rw [if_pos ⟨by simp, by simp⟩]
  have hf2 : polyfit ([(400:ℝ), 800, 1600, 3200].map Real.log) [30, 35, 40, 45] =
      some (lstsq ([(400:ℝ), 800, 1600, 3200].map Real.log) [30, 35, 40, 45]) := by
    unfold polyfit
    rw [if_pos ⟨by simp, by simp⟩]
  refine bd_metrics_piecewise_raises (by simp) hf1 hf2 ?_ one_ne_zero
  rw [minD_map_log p1 (by simp), minD_map_log p2 (by simp),
      maxD_map_log p1 (by simp), maxD_map_log p2 (by simp)]
  have v1 : minD [(500:ℝ), 1000, 2000, 4000] = 500 := by norm_num [minD, min_def]
  have v2 : minD [(400:ℝ), 800, 1600, 3200] = 400 := by norm_num [minD, min_def]
  have v3 : maxD [(500:ℝ), 1000, 2000, 4000] = 4000 := by norm_num [maxD, max_def]
  have v4 : maxD [(400:ℝ), 800, 1600, 3200] = 3200 := by norm_num [maxD, max_def]
  rw [v1, v2, v3, v4]
  refine not_le.mpr ?_
  have hmax : max (Real.log 500) (Real.log 400) ≤ Real.log 500 :=
    max_le (le_refl _) (log_le_log_of (by norm_num) (by norm_num))
  have hmin : Real.log 3200 ≤ min (Real.log 4000) (Real.log 3200) :=
    le_min (log_le_log_of (by norm_num) (by norm_num)) (le_refl _)
  exact lt_of_le_of_lt hmax (lt_of_lt_of_le (Real.log_lt_log (by norm_num) (by norm_num)) hmin)

/-- C5 (amended): in exact mode no exception ever escapes `_bd_rate` or
`_bd_metrics`, and a failure of the `try`-wrapped polynomial fit is turned
into the `None` sentinel in every mode; only the piecewise interpolation
stage, which sits outside the `try` block, can raise. -/
theorem bd_fit_exceptions_caught (rate1 metric1 rate2 metric2 : List ℝ) :
    (bd_rate rate1 metric1 rate2 metric2 0 ≠ .raises ∧
     bd_metrics rate1 metric1 rate2 metric2 0 ≠ .raises) ∧
    (∀ p : ℕ,
      polyfit metric1 (rate1.map Real.log) = none ∨
        polyfit metric2 (rate2.map Real.log) = none →
      bd_rate rate1 metric1 rate2 metric2 p = .returns none) ∧
    (∀ p : ℕ,
      polyfit (rate1.map Real.log) metric1 = none ∨
        polyfit (rate2.map Real.log) metric2 = none →
      bd_metrics rate1 metric1 rate2 metric2 p = .returns none) := by
  refine ⟨⟨bd_rate_zero_ne_raises _ _ _ _, bd_metrics_zero_ne_raises _ _ _ _⟩, ?_, ?_⟩
  · intro p hf
    by_cases hlen : rate1.length < 4 ∨ rate2.length < 4
    · exact bd_rate_guard hlen
    · exact bd_rate_fit_none hlen hf
  · intro p hf
    by_cases hlen : rate1.length < 4 ∨ rate2.length < 4
    · exact bd_metrics_guard hlen
    · exact bd_metrics_fit_none hlen hf

/-- Witness for the amended C5: a length-mismatched metric list on the test
side only makes that side's fit fail, and the failure is converted to `None`
in both modes and both functions. -/
theorem bd_fit_exceptions_caught_witness :
    (bd_rate [1, 2, 3, 4] [10, 20, 30, 40] [1, 2, 3, 4] [10, 20, 30] 0 ≠ .raises ∧
     bd_metrics [1, 2, 3, 4] [10, 20, 30, 40] [1, 2, 3, 4] [10, 20, 30] 0 ≠ .raises) ∧
    bd_rate [1, 2, 3, 4] [10, 20, 30, 40] [1, 2, 3, 4] [10, 20, 30] 1 = .returns none ∧
    bd_metrics [1, 2, 3, 4] [10, 20, 30, 40] [1, 2, 3, 4] [10, 20, 30] 1 = .returns none := by
  obtain ⟨hnr, hr, hm⟩ := bd_fit_exceptions_caught [1, 2, 3, 4] [10, 20, 30, 40]
    [1, 2, 3, 4] [10, 20, 30]
  exact ⟨hnr, hr 1 (Or.inr (by simp [polyfit])), hm 1 (Or.inr (by simp [polyfit]))⟩

/-- Counterexample for C10: a sample set with at least 4 points, strictly
positive bitrates and a non-degenerate metric range, passed as both anchor
and test.  Because every bitrate is equal, the log-bitrate overlap interval
of `_bd_metrics` is empty and the function returns `None`, not `0`. -/
theorem bd_identity_cx :
    bd_metrics [5, 5, 5, 5] [1, 2, 3, 4] [5, 5, 5, 5] [1, 2, 3, 4] 0 = .returns none ∧
    bd_metrics [5, 5, 5, 5] [1, 2, 3, 4] [5, 5, 5, 5] [1, 2, 3, 4] 0 ≠
      .returns (some 0) := by
  have hf : polyfit ([(5:ℝ), 5, 5, 5].map Real.log) [1, 2, 3, 4] =
      some (lstsq ([(5:ℝ), 5, 5, 5].map Real.log) [1, 2, 3, 4]) := by
    unfold polyfit
    rw [if_pos ⟨by simp, by simp⟩]
  have hov : min (maxD ([(5:ℝ), 5, 5, 5].map Real.log)) (maxD ([(5:ℝ), 5, 5, 5].map Real.log)) ≤
      max (minD ([(5:ℝ), 5, 5, 5].map Real.log)) (minD ([(5:ℝ), 5, 5, 5].map Real.log)) := by
    have p5 : ∀ x ∈ [(5:ℝ), 5, 5, 5], 0 < x := by
      intro x hx
      simp at hx
      rcases hx with rfl | rfl | rfl | rfl
      norm_num
    rw [minD_map_log p5 (by simp), maxD_map_log p5 (by simp)]
    have v1 : minD [(5:ℝ), 5, 5, 5] = 5 := by norm_num [minD, min_def]
    have v2 : maxD [(5:ℝ), 5, 5, 5] = 5 := by norm_num [maxD, max_def]
    rw [v1, v2, min_self, max_self]
  have h : bd_metrics [5, 5, 5, 5] [1, 2, 3, 4] [5, 5, 5, 5] [1, 2, 3, 4] 0 =
      .returns none := bd_metrics_overlap_none (by simp) hf hf hov
  refine ⟨h, ?_⟩
  rw [h]
  intro he
  injection he with he'
  exact Option.noConfusion he'

/-- C10 (amended): passing one sample set — at least 4 points, positive
bitrates, non-degenerate metric range and non-degenerate log-bitrate range —
as both anchor and test yields exactly `0` from `_bd_rate` and `_bd_metrics`
in exact mode: the two fitted curves coincide, so the integral difference
vanishes. -/
theorem bd_identity_zero (r m : List ℝ) (h4 : 4 ≤ r.length)
    (hlen : m.length = r.length) (hpos : ∀ x ∈ r, 0 < x)
    (hm : minD m < maxD m)
    (hr : minD (r.map Real.log) < maxD (r.map Real.log)) :
    bd_rate r m r m 0 = .returns (some 0) ∧
    bd_metrics r m r m 0 = .returns (some 0) := by
  have hlen' : ¬(r.length < 4 ∨ r.length < 4) := by push_neg; exact ⟨h4, h4⟩
  have hnem : m ≠ [] := List.ne_nil_of_length_pos (by omega)
  have hner : r.map Real.log ≠ [] := by
    simp only [ne_eq, List.map_eq_nil_iff]
    exact List.ne_nil_of_length_pos (by omega)
  have hfA : polyfit m (r.map Real.log) = some (lstsq m (r.map Real.log)) := by
    unfold polyfit
    rw [if_pos ⟨by simp [hlen], hnem⟩]
  have hfB : polyfit (r.map Real.log) m = some (lstsq (r.map Real.log) m) := by
    unfold polyfit
    rw [if_pos ⟨by simp [hlen], hner⟩]
  have hovA : ¬ min (maxD m) (maxD m) ≤ max (minD m) (minD m) := by
    rw [min_self, max_self]; exact not_le.mpr hm
  have hovB : ¬ min (maxD (r.map Real.log)) (maxD (r.map Real.log)) ≤
      max (minD (r.map Real.log)) (minD (r.map Real.log)) := by
    rw [min_self, max_self]; exact not_le.mpr hr
  constructor
  · rw [bd_rate_exact_val hlen' hfA hfA hovA]
    norm_num
  · rw [bd_metrics_exact_val hlen' hfB hfB hovB]
    norm_num

/-- Witness for the amended C10 at a concrete four-point sample set. -/
theorem bd_identity_zero_witness :
    bd_rate [500, 1000, 2000, 4000] [30, 35, 40, 45] [500, 1000, 2000, 4000] [30, 35, 40, 45] 0 =
      .returns (some 0) ∧
    bd_metrics [500, 1000, 2000, 4000] [30, 35, 40, 45] [500, 1000, 2000, 4000] [30, 35, 40, 45] 0 =
      .returns (some 0) := by
  apply bd_identity_zero
  · simp
  · simp
  · intro x hx; simp at hx; rcases hx with rfl | rfl | rfl | rfl <;> norm_num
  · norm_num [minD, maxD, min_def, max_def]
  · have p1 : ∀ x ∈ [(500:ℝ), 1000, 2000, 4000], 0 < x := by
      intro x hx; simp at hx; rcases hx with rfl | rfl | rfl | rfl <;> norm_num
    rw [minD_map_log p1 (by simp), maxD_map_log p1 (by simp)]
    have v1 : minD [(500:ℝ), 1000, 2000, 4000] = 500 := by norm_num [minD, min_def]
    have v2 : maxD [(500:ℝ), 1000, 2000, 4000] = 4000 := by norm_num [maxD, max_def]
    rw [v1, v2]
    exact Real.log_lt_log (by norm_num) (by norm_num)

/-! Least-squares machinery: behaviour of the normal-equation solution under
a constant shift of the ordinates, used for the sign-convention claim. -/

section Shift

theorem sum_map_add {α : Type} (l : List α) (f g : α → ℝ) :
    (l.map fun a => f a + g a).sum = (l.map f).sum + (l.map g).sum := by
  induction l with
  | nil => simp
  | cons x l ih => simp [ih]; ring

theorem sum_map_mul_left {α : Type} (l : List α) (k : ℝ) (f : α → ℝ) :
    (l.map fun a => k * f a).sum = k * (l.map f).sum := by
  induction l with
  | nil => simp
  | cons x l ih => simp [ih]; ring

theorem gram_mulVec_single (xs : List ℝ) :
    (gram xs).mulVec (Pi.single (3 : Fin 4) (1 : ℝ)) =
      fun i => (xs.map fun x => x ^ (3 - i.val)).sum := by
  funext i
  simp only [Matrix.mulVec, Matrix.dotProduct_single, mul_one]
  have h3 : ((3 : Fin 4) : ℕ) = 3 := rfl
  simp [gram, h3]

theorem moment_shift (xs ys : List ℝ) (k : ℝ) (hlen : xs.length ≤ ys.length) :
    moment xs (ys.map fun y => y + k) =
      fun i => moment xs ys i + k * (xs.map fun x => x ^ (3 - i.val)).sum := by
  funext i
  unfold moment
  rw [List.zip_map_right, List.map_map]
  have hcomp : ((fun q : ℝ × ℝ => q.2 * q.1 ^ (3 - i.val)) ∘ Prod.map id fun y => y + k) =
      fun q : ℝ × ℝ => q.2 * q.1 ^ (3 - i.val) + k * q.1 ^ (3 - i.val) := by
    funext q
    simp [Prod.map]
    ring
  rw [hcomp, sum_map_add, sum_map_mul_left]
  congr 2
  have hfst : (xs.zip ys).map (fun q : ℝ × ℝ => q.1 ^ (3 - i.val)) =
      ((xs.zip ys).map Prod.fst).map fun x => x ^ (3 - i.val) := by
    rw [List.map_map]
    rfl
  rw [hfst, List.map_fst_zip xs ys hlen]

theorem lstsqVec_shift (xs ys : List ℝ) (k : ℝ) (hdet : IsUnit (gram xs).det)
    (hlen : xs.length ≤ ys.length) :
    lstsqVec xs (ys.map fun y => y + k) =
      lstsqVec xs ys + k • (Pi.single (3 : Fin 4) (1 : ℝ) : Fin 4 → ℝ) := by
  unfold lstsqVec
  rw [moment_shift xs ys k hlen]
  have hu : (fun i : Fin 4 => moment xs ys i + k * (xs.map fun x => x ^ (3 - i.val)).sum) =
      moment xs ys + k • ((gram xs).mulVec (Pi.single (3 : Fin 4) (1 : ℝ)) : Fin 4 → ℝ) := by
    funext i
    rw [gram_mulVec_single]
    simp
  rw [hu, Matrix.mulVec_add, Matrix.mulVec_smul, Matrix.mulVec_mulVec,
      Matrix.nonsing_inv_mul _ hdet, Matrix.one_mulVec]

end Shift

/-! Concrete Gram matrix for the metric abscissae `[30, 35, 40, 45]` of the
spec's sign-convention example, and its invertibility. -/

section SignExample

theorem gram_3035 : gram [(30:ℝ), 35, 40, 45] =
    !![14967031250, 363750000, 8971250, 225000;
       363750000, 8971250, 225000, 5750;
       8971250, 225000, 5750, 150;
       225000, 5750, 150, 4] := by
  ext i j
  fin_cases i <;> fin_cases j <;>
    (simp [gram, show ((3 : Fin 4) : ℕ) = 3 from rfl]; norm_num)

theorem gram_3035_det : IsUnit (gram [(30:ℝ), 35, 40, 45]).det := by
  refine isUnit_iff_ne_zero.mpr ?_
  rw [gram_3035]
  norm_num [Matrix.det_succ_row_zero, Fin.sum_univ_succ, Fin.succAbove,
    Matrix.submatrix_apply, Fin.lt_def,
    show Fin.castSucc (2 : Fin 3) = (2 : Fin 4) by decide]

theorem shift_value (v0 v1 v2 v3 k : ℝ) (hk : Real.exp k = 4 / 5) :
    (Real.exp ((polyval (polyint [v0, v1, v2, v3 + k]) 45 -
      polyval (polyint [v0, v1, v2, v3 + k]) 30 -
      (polyval (polyint [v0, v1, v2, v3]) 45 - polyval (polyint [v0, v1, v2, v3]) 30)) /
      ((45:ℝ) - 30)) - 1) * 100 = -20 := by
  have harg : (polyval (polyint [v0, v1, v2, v3 + k]) 45 -
      polyval (polyint [v0, v1, v2, v3 + k]) 30 -
      (polyval (polyint [v0, v1, v2, v3]) 45 - polyval (polyint [v0, v1, v2, v3]) 30)) /
      ((45:ℝ) - 30) = k := by
    simp [polyint, polyintAux, polyval]
    ring
  rw [harg, hk]
  norm_num

theorem log_shift_list :
    ([(400:ℝ), 800, 1600, 3200].map Real.log) =
      (([(500:ℝ), 1000, 2000, 4000].map Real.log).map fun y => y + Real.log (4 / 5)) := by
  simp only [List.map_cons, List.map_nil, List.cons.injEq, and_true]
  refine ⟨?_, ?_, ?_, ?_⟩
  · rw [show (400:ℝ) = 500 * (4 / 5) from by norm_num,
      Real.log_mul (by norm_num) (by norm_num)]
  · rw [show (800:ℝ) = 1000 * (4 / 5) from by norm_num,
      Real.log_mul (by norm_num) (by norm_num)]
  · rw [show (1600:ℝ) = 2000 * (4 / 5) from by norm_num,
      Real.log_mul (by norm_num) (by norm_num)]
  · rw [show (3200:ℝ) = 4000 * (4 / 5) from by norm_num,
      Real.log_mul (by norm_num) (by norm_num)]

end SignExample

/-- C7: for anchor samples `bitrates = [500, 1000, 2000, 4000]`,
`metric = [30, 35, 40, 45]` and test samples `bitrates = [400, 800, 1600, 3200]`
with the same metrics, `_bd_rate` returns a strictly negative value — the
test side uses 20% less bitrate at every quality, and the computed value is
exactly `-20`. -/
theorem bd_rate_sign_improvement :
    ∃ v : ℝ,
      bd_rate [500, 1000, 2000, 4000] [30, 35, 40, 45] [400, 800, 1600, 3200] [30, 35, 40, 45] 0 =
        .returns (some v) ∧ v < 0 := by
  have hlen : ¬(([500, 1000, 2000, 4000] : List ℝ).length < 4 ∨
      ([400, 800, 1600, 3200] : List ℝ).length < 4) := by simp
  have hf1 : polyfit [(30:ℝ), 35, 40, 45] ([(500:ℝ), 1000, 2000, 4000].map Real.log) =
      some (lstsq [(30:ℝ), 35, 40, 45] ([(500:ℝ), 1000, 2000, 4000].map Real.log)) := by
    unfold polyfit
    rw [if_pos ⟨by simp, by simp⟩]
  have hf2 : polyfit [(30:ℝ), 35, 40, 45] ([(400:ℝ), 800, 1600, 3200].map Real.log) =
      some (lstsq [(30:ℝ), 35, 40, 45] ([(400:ℝ), 800, 1600, 3200].map Real.log)) := by
    unfold polyfit
    rw [if_pos ⟨by simp, by simp⟩]
  have hov : ¬ min (maxD [(30:ℝ), 35, 40, 45]) (maxD [(30:ℝ), 35, 40, 45]) ≤
      max (minD [(30:ℝ), 35, 40, 45]) (minD [(30:ℝ), 35, 40, 45]) := by
    rw [min_self, max_self]
    norm_num [minD, maxD, min_def, max_def]
  refine ⟨-20, ?_, by norm_num⟩
  rw [bd_rate_exact_val hlen hf1 hf2 hov]
  have hshift := lstsqVec_shift [(30:ℝ), 35, 40, 45]
    ([(500:ℝ), 1000, 2000, 4000].map Real.log) (Real.log (4 / 5)) gram_3035_det (by simp)
  have hB : lstsq [(30:ℝ), 35, 40, 45] ([(400:ℝ), 800, 1600, 3200].map Real.log) =
      [lstsqVec [(30:ℝ), 35, 40, 45] ([(500:ℝ), 1000, 2000, 4000].map Real.log) 0,
       lstsqVec [(30:ℝ), 35, 40, 45] ([(500:ℝ), 1000, 2000, 4000].map Real.log) 1,
       lstsqVec [(30:ℝ), 35, 40, 45] ([(500:ℝ), 1000, 2000, 4000].map Real.log) 2,
       lstsqVec [(30:ℝ), 35, 40, 45] ([(500:ℝ), 1000, 2000, 4000].map Real.log) 3 +
         Real.log (4 / 5)] := by
    unfold lstsq
    rw [log_shift_list, hshift]
    simp [Pi.single_apply]
  have hA : lstsq [(30:ℝ), 35, 40, 45] ([(500:ℝ), 1000, 2000, 4000].map Real.log) =
      [lstsqVec [(30:ℝ), 35, 40, 45] ([(500:ℝ), 1000, 2000, 4000].map Real.log) 0,
       lstsqVec [(30:ℝ), 35, 40, 45] ([(500:ℝ), 1000, 2000, 4000].map Real.log) 1,
       lstsqVec [(30:ℝ), 35, 40, 45] ([(500:ℝ), 1000, 2000, 4000].map Real.log) 2,
       lstsqVec [(30:ℝ), 35, 40, 45] ([(500:ℝ), 1000, 2000, 4000].map Real.log) 3] := rfl
  rw [hB, hA, min_self, max_self,
    show maxD [(30:ℝ), 35, 40, 45] = 45 from by norm_num [maxD, max_def],
    show minD [(30:ℝ), 35, 40, 45] = 30 from by norm_num [minD, min_def]]
  exact congrArg _ (congrArg _ (shift_value _ _ _ _ _ (Real.exp_log (by norm_num))))

/-! Reorder invariance machinery: the lexicographic pair order, permutation
invariance of the fit ingredients, and congruence of the BD functions in
their derived quantities. -/

section Reorder

instance lexLe.isTotal : IsTotal (ℝ × ℝ) lexLe := ⟨fun p q => by
  unfold lexLe
  rcases lt_trichotomy p.1 q.1 with h | h | h
  · exact Or.inl (Or.inl h)
  · rcases le_total p.2 q.2 with h2 | h2
    · exact Or.inl (Or.inr ⟨h, h2⟩)
    · exact Or.inr (Or.inr ⟨h.symm, h2⟩)
  · exact Or.inr (Or.inl h)⟩

instance lexLe.isTrans : IsTrans (ℝ × ℝ) lexLe := ⟨fun p q r h1 h2 => by
  unfold lexLe at h1 h2 ⊢
  rcases h1 with h1 | ⟨e1, l1⟩
  · rcases h2 with h2 | ⟨e2, l2⟩
    · exact Or.inl (h1.trans h2)
    · exact Or.inl (lt_of_lt_of_eq h1 e2)
  · rcases h2 with h2 | ⟨e2, l2⟩
    · exact Or.inl (lt_of_eq_of_lt e1 h2)
    · exact Or.inr ⟨e1.trans e2, l1.trans l2⟩⟩

instance lexLe.isAntisymm : IsAntisymm (ℝ × ℝ) lexLe := ⟨fun p q h1 h2 => by
  unfold lexLe at h1 h2
  rcases h1 with h1 | ⟨e1, l1⟩
  · rcases h2 with h2 | ⟨e2, l2⟩
    · exact absurd (h1.trans h2) (lt_irrefl _)
    · exact absurd h1 (not_lt.mpr (le_of_eq e2))
  · rcases h2 with h2 | ⟨e2, l2⟩
    · exact absurd h2 (not_lt.mpr (le_of_eq e1))
    · exact Prod.ext e1 (le_antisymm l1 l2)⟩

theorem sortPairs_eq_of_perm {l l' : List (ℝ × ℝ)} (h : l.Perm l') :
    sortPairs l = sortPairs l' :=
  List.eq_of_perm_of_sorted
    ((List.perm_insertionSort lexLe l).trans (h.trans (List.perm_insertionSort lexLe l').symm))
    (List.sorted_insertionSort lexLe l)
    (List.sorted_insertionSort lexLe l')

theorem gram_perm {xs xs' : List ℝ} (h : xs.Perm xs') : gram xs = gram xs' := by
  ext i j
  simp only [gram, Matrix.of_apply]
  exact (h.map _).sum_eq

theorem moment_eq_of_perm {xs ys xs' ys' : List ℝ}
    (h : (xs.zip ys).Perm (xs'.zip ys')) : moment xs ys = moment xs' ys' := by
  funext i
  exact (h.map _).sum_eq

theorem lstsq_eq_of_perm {xs ys xs' ys' : List ℝ} (hx : xs.Perm xs')
    (h : (xs.zip ys).Perm (xs'.zip ys')) : lstsq xs ys = lstsq xs' ys' := by
  unfold lstsq lstsqVec
  rw [gram_perm hx, moment_eq_of_perm h]

theorem polyfit_eq_of_perm {xs ys xs' ys' : List ℝ} (hx : xs.Perm xs')
    (hlx : xs.length = ys.length) (hlx' : xs'.length = ys'.length)
    (h : (xs.zip ys).Perm (xs'.zip ys')) : polyfit xs ys = polyfit xs' ys' := by
  unfold polyfit
  by_cases hne : xs = []
  · subst hne
    have : xs' = [] := hx.nil_eq.symm
    subst this
    simp
  · have hne' : xs' ≠ [] := by
      intro e
      rw [e] at hx
      exact hne (List.length_eq_zero.mp (by simpa using hx.length_eq))
    rw [if_pos ⟨hlx, hne⟩, if_pos ⟨hlx', hne'⟩, lstsq_eq_of_perm hx h]

theorem zip_log_right (r m : List ℝ) :
    (r.zip m).map (fun q => (q.2, Real.log q.1)) = m.zip (r.map Real.log) := by
  induction r generalizing m with
  | nil => simp
  | cons a r ih =>
    cases m with
    | nil => simp
    | cons b m => simp [ih]

theorem zip_log_left (r m : List ℝ) :
    (r.zip m).map (fun q => (Real.log q.1, q.2)) = (r.map Real.log).zip m := by
  induction r generalizing m with
  | nil => simp
  | cons a r ih =>
    cases m with
    | nil => simp
    | cons b m => simp [ih]

theorem side_perm_facts {r m r' m' : List ℝ} (hm : m.length = r.length)
    (hm' : m'.length = r'.length) (hp : (r.zip m).Perm (r'.zip m')) :
    r.Perm r' ∧ m.Perm m' ∧
    (m.zip (r.map Real.log)).Perm (m'.zip (r'.map Real.log)) ∧
    ((r.map Real.log).zip m).Perm ((r'.map Real.log).zip m') := by
  have hr : r.Perm r' := by
    have h := hp.map Prod.fst
    rwa [List.map_fst_zip r m hm.ge, List.map_fst_zip r' m' hm'.ge] at h
  have hmm : m.Perm m' := by
    have h := hp.map Prod.snd
    rwa [List.map_snd_zip r m hm.le, List.map_snd_zip r' m' hm'.le] at h
  refine ⟨hr, hmm, ?_, ?_⟩
  · have h := hp.map fun q => (q.2, Real.log q.1)
    rwa [zip_log_right, zip_log_right] at h
  · have h := hp.map fun q => (Real.log q.1, q.2)
    rwa [zip_log_left, zip_log_left] at h

theorem bd_rate_congr {r1 m1 r2 m2 r1' m1' r2' m2' : List ℝ}
    (hL1 : r1.length = r1'.length) (hL2 : r2.length = r2'.length)
    (hF1 : polyfit m1 (r1.map Real.log) = polyfit m1' (r1'.map Real.log))
    (hF2 : polyfit m2 (r2.map Real.log) = polyfit m2' (r2'.map Real.log))
    (hMin1 : minD m1 = minD m1') (hMin2 : minD m2 = minD m2')
    (hMax1 : maxD m1 = maxD m1') (hMax2 : maxD m2 = maxD m2')
    (hS1 : sortPairs (m1.zip (r1.map Real.log)) = sortPairs (m1'.zip (r1'.map Real.log)))
    (hS2 : sortPairs (m2.zip (r2.map Real.log)) = sortPairs (m2'.zip (r2'.map Real.log)))
    (p : ℕ) :
    bd_rate r1 m1 r2 m2 p = bd_rate r1' m1' r2' m2' p := by
  simp only [bd_rate]
  rw [hL1, hL2, hF1, hF2, hMin1, hMin2, hMax1, hMax2, hS1, hS2]

theorem bd_metrics_congr {r1 m1 r2 m2 r1' m1' r2' m2' : List ℝ}
    (hL1 : r1.length = r1'.length) (hL2 : r2.length = r2'.length)
    (hF1 : polyfit (r1.map Real.log) m1 = polyfit (r1'.map Real.log) m1')
    (hF2 : polyfit (r2.map Real.log) m2 = polyfit (r2'.map Real.log) m2')
    (hMin1 : minD (r1.map Real.log) = minD (r1'.map Real.log))
    (hMin2 : minD (r2.map Real.log) = minD (r2'.map Real.log))
    (hMax1 : maxD (r1.map Real.log) = maxD (r1'.map Real.log))
    (hMax2 : maxD (r2.map Real.log) = maxD (r2'.map Real.log))
    (p : ℕ) :
    bd_metrics r1 m1 r2 m2 p = bd_metrics r1' m1' r2' m2' p := by
  simp only [bd_metrics]
  rw [hL1, hL2, hF1, hF2, hMin1, hMin2, hMax1, hMax2]

end Reorder

/-- C9: shuffling the sample order of either side, with (bitrate, metric)
pairs kept intact, leaves `_bd_rate` and `_bd_metrics` unchanged in both
exact and piecewise modes: every ingredient of the computation — the fit's
normal equations, the range endpoints, and the piecewise path's sort by the
fitting axis — is invariant under permutation of the pairs. -/
theorem bd_reorder_invariant
    (r1 m1 r2 m2 r1' m1' r2' m2' : List ℝ) (p : ℕ)
    (hm1 : m1.length = r1.length) (hm1' : m1'.length = r1'.length)
    (hm2 : m2.length = r2.length) (hm2' : m2'.length = r2'.length)
    (hp1 : (r1.zip m1).Perm (r1'.zip m1'))
    (hp2 : (r2.zip m2).Perm (r2'.zip m2')) :
    bd_rate r1 m1 r2 m2 p = bd_rate r1' m1' r2' m2' p ∧
    bd_metrics r1 m1 r2 m2 p = bd_metrics r1' m1' r2' m2' p := by
  obtain ⟨hr1, hmm1, hz1, hw1⟩ := side_perm_facts hm1 hm1' hp1
  obtain ⟨hr2, hmm2, hz2, hw2⟩ := side_perm_facts hm2 hm2' hp2
  have hlr1 := hr1.map Real.log
  have hlr2 := hr2.map Real.log
  constructor
  · exact bd_rate_congr hr1.length_eq hr2.length_eq
      (polyfit_eq_of_perm hmm1 (by simp [hm1]) (by simp [hm1']) hz1)
      (polyfit_eq_of_perm hmm2 (by simp [hm2]) (by simp [hm2']) hz2)
      (minD_perm hmm1) (minD_perm hmm2) (maxD_perm hmm1) (maxD_perm hmm2)
      (sortPairs_eq_of_perm hz1) (sortPairs_eq_of_perm hz2) p
  · exact bd_metrics_congr hr1.length_eq hr2.length_eq
      (polyfit_eq_of_perm hlr1 (by simp [hm1]) (by simp [hm1']) hw1)
      (polyfit_eq_of_perm hlr2 (by simp [hm2]) (by simp [hm2']) hw2)
      (minD_perm hlr1) (minD_perm hlr2) (maxD_perm hlr1) (maxD_perm hlr2) p

/-- Witness for C9: swapping the first two (bitrate, metric) pairs on each
side leaves both functions unchanged, here in piecewise mode. -/
theorem bd_reorder_invariant_witness :
    bd_rate [500, 1000, 2000, 4000] [30, 35, 40, 45] [400, 800, 1600, 3200] [31, 36, 41, 46] 1 =
      bd_rate [1000, 500, 2000, 4000] [35, 30, 40, 45] [800, 400, 1600, 3200] [36, 31, 41, 46] 1 ∧
    bd_metrics [500, 1000, 2000, 4000] [30, 35, 40, 45] [400, 800, 1600, 3200] [31, 36, 41, 46] 1 =
      bd_metrics [1000, 500, 2000, 4000] [35, 30, 40, 45] [800, 400, 1600, 3200] [36, 31, 41, 46] 1 := by
  refine bd_reorder_invariant _ _ _ _ _ _ _ _ 1
    (by simp) (by simp) (by simp) (by simp) ?_ ?_
  · simp only [List.zip_cons_cons, List.zip_nil_right]
    exact List.Perm.swap _ _ _
  · simp only [List.zip_cons_cons, List.zip_nil_right]
    exact List.Perm.swap _ _ _

/-! Least-squares optimality of the embedded fit: with an invertible Gram
matrix the normal-equation solution minimises the residual sum of squares,
which justifies reading `lstsq` as the least-squares fit of `np.polyfit`. -/

section LeastSquares

theorem lstsqVec_normal_eq (xs ys : List ℝ) (h : IsUnit (gram xs).det) :
    (gram xs).mulVec (lstsqVec xs ys) = moment xs ys := by
  unfold lstsqVec
  rw [Matrix.mulVec_mulVec, Matrix.mul_nonsing_inv _ h, Matrix.one_mulVec]

theorem sum_map_sub {α : Type} (l : List α) (f g : α → ℝ) :
    (l.map fun a => f a - g a).sum = (l.map f).sum - (l.map g).sum := by
  induction l with
  | nil => simp
  | cons x l ih => simp [ih]; ring

theorem sum_exchange (l : List (ℝ × ℝ)) (f : ℝ × ℝ → Fin 4 → ℝ) :
    (l.map fun q => ∑ j : Fin 4, f q j).sum = ∑ j : Fin 4, (l.map fun q => f q j).sum := by
  induction l with
  | nil => simp
  | cons a l ih => simp [ih, Finset.sum_add_distrib]

theorem zip_fst_pow_sum (xs ys : List ℝ) (hlen : xs.length ≤ ys.length)
    (f : ℝ → ℝ) : ((xs.zip ys).map fun q => f q.1).sum = (xs.map f).sum := by
  have h : (xs.zip ys).map (fun q => f q.1) = ((xs.zip ys).map Prod.fst).map f := by
    rw [List.map_map]
    rfl
  rw [h, List.map_fst_zip xs ys hlen]

theorem sum_comb (l : List (ℝ × ℝ)) (A B C : ℝ × ℝ → ℝ) :
    (l.map fun q => (A q + B q) - 2 * C q).sum =
    ((l.map A).sum + (l.map B).sum) - 2 * (l.map C).sum := by
  induction l with
  | nil => simp
  | cons x l ih => simp [ih]; ring

theorem resid_moment (xs ys : List ℝ) (cs : Fin 4 → ℝ)
    (hlen : xs.length = ys.length) (j : Fin 4) :
    ((xs.zip ys).map fun q =>
      (q.2 - ∑ i : Fin 4, cs i * q.1 ^ (3 - i.val)) * q.1 ^ (3 - j.val)).sum =
    moment xs ys j - ((gram xs).mulVec cs) j := by
  have hsplit : (fun q : ℝ × ℝ =>
      (q.2 - ∑ i : Fin 4, cs i * q.1 ^ (3 - i.val)) * q.1 ^ (3 - j.val)) =
      fun q : ℝ × ℝ => q.2 * q.1 ^ (3 - j.val) -
        ∑ i : Fin 4, cs i * (q.1 ^ (3 - i.val) * q.1 ^ (3 - j.val)) := by
    funext q
    rw [sub_mul, Finset.sum_mul]
    congr 1
    exact Finset.sum_congr rfl fun i _ => by ring
  rw [hsplit, sum_map_sub]
  congr 1
  rw [sum_exchange]
  have hterm : ∀ i : Fin 4, ((xs.zip ys).map fun q =>
      cs i * (q.1 ^ (3 - i.val) * q.1 ^ (3 - j.val))).sum = gram xs j i * cs i := by
    intro i
    rw [sum_map_mul_left,
        zip_fst_pow_sum xs ys hlen.le fun x => x ^ (3 - i.val) * x ^ (3 - j.val),
        mul_comm]
    have hfun : (fun x : ℝ => x ^ (3 - i.val) * x ^ (3 - j.val)) =
        fun x : ℝ => x ^ (3 - j.val) * x ^ (3 - i.val) := by
      funext x
      ring
    simp only [gram, Matrix.of_apply, hfun]
  rw [Finset.sum_congr rfl fun i _ => hterm i]
  simp [Matrix.mulVec, Matrix.dotProduct]

theorem lstsq_rss_min (xs ys : List ℝ) (hdet : IsUnit (gram xs).det)
    (hlen : xs.length = ys.length) (c : Fin 4 → ℝ) :
    rss xs ys (lstsqVec xs ys) ≤ rss xs ys c := by
  have hne := lstsqVec_normal_eq xs ys hdet
  set cs := lstsqVec xs ys with hcs
  have hpt : (fun q : ℝ × ℝ => (q.2 - ∑ j : Fin 4, c j * q.1 ^ (3 - j.val)) ^ 2) =
      fun q : ℝ × ℝ =>
        ((q.2 - ∑ j : Fin 4, cs j * q.1 ^ (3 - j.val)) ^ 2 +
         (∑ j : Fin 4, (c j - cs j) * q.1 ^ (3 - j.val)) ^ 2) -
        2 * ((q.2 - ∑ j : Fin 4, cs j * q.1 ^ (3 - j.val)) *
             ∑ j : Fin 4, (c j - cs j) * q.1 ^ (3 - j.val)) := by
    funext q
    have hsplit : ∑ j : Fin 4, c j * q.1 ^ (3 - j.val) =
        (∑ j : Fin 4, cs j * q.1 ^ (3 - j.val)) +
        ∑ j : Fin 4, (c j - cs j) * q.1 ^ (3 - j.val) := by
      rw [← Finset.sum_add_distrib]
      exact Finset.sum_congr rfl fun j _ => by ring
    rw [hsplit]
    ring
  have hsum : rss xs ys c =
      (rss xs ys cs +
       ((xs.zip ys).map fun q => (∑ j : Fin 4, (c j - cs j) * q.1 ^ (3 - j.val)) ^ 2).sum) -
      2 * ((xs.zip ys).map fun q => (q.2 - ∑ j : Fin 4, cs j * q.1 ^ (3 - j.val)) *
           ∑ j : Fin 4, (c j - cs j) * q.1 ^ (3 - j.val)).sum := by
    unfold rss
    rw [hpt, sum_comb]
  have hcross : ((xs.zip ys).map fun q => (q.2 - ∑ j : Fin 4, cs j * q.1 ^ (3 - j.val)) *
      ∑ j : Fin 4, (c j - cs j) * q.1 ^ (3 - j.val)).sum = 0 := by
    have hin : (fun q : ℝ × ℝ => (q.2 - ∑ j : Fin 4, cs j * q.1 ^ (3 - j.val)) *
        ∑ j : Fin 4, (c j - cs j) * q.1 ^ (3 - j.val)) =
        fun q : ℝ × ℝ => ∑ j : Fin 4, (c j - cs j) *
          ((q.2 - ∑ i : Fin 4, cs i * q.1 ^ (3 - i.val)) * q.1 ^ (3 - j.val)) := by
      funext q
      rw [Finset.mul_sum]
      exact Finset.sum_congr rfl fun j _ => by ring
    rw [hin, sum_exchange]
    have hz : ∀ j : Fin 4, ((xs.zip ys).map fun q => (c j - cs j) *
        ((q.2 - ∑ i : Fin 4, cs i * q.1 ^ (3 - i.val)) * q.1 ^ (3 - j.val))).sum =
        (c j - cs j) * (moment xs ys j - ((gram xs).mulVec cs) j) := by
      intro j
      rw [sum_map_mul_left, resid_moment xs ys cs hlen j]
    rw [Finset.sum_congr rfl fun j _ => hz j, hne]
    simp
  have hnn : 0 ≤ ((xs.zip ys).map fun q =>
      (∑ j : Fin 4, (c j - cs j) * q.1 ^ (3 - j.val)) ^ 2).sum := by
    apply List.sum_nonneg
    intro x hx
    obtain ⟨q, hq, rfl⟩ := List.mem_map.mp hx
    exact sq_nonneg _
  rw [hsum, hcross]
  linarith

end LeastSquares
